import Mathlib

/-!
Verification of the PubMed author-email extraction core (`src/app.py`).

The Python source is shallowly embedded: XML element lookups become `Option`
fields, Python `set`s become duplicate-free lists (first-occurrence order),
and `re.findall` with the pattern
`\b[A-Za-z0-9._%+-]+@[A-Za-z0-9.-]+\.[A-Z|a-z]{2,}\b` is embedded as a
left-to-right backtracking scanner over the character list.  `\b`/`\w` are
modelled over ASCII word characters (letters, digits, underscore), matching
the ASCII character classes of the pattern itself.
-/

namespace PubMed

/-- ASCII word character, the model of `\w` used by the `\b` anchors. -/
def isWordChar (c : Char) : Bool := c.isAlphanum || c = '_'

/-- The local-part class `[A-Za-z0-9._%+-]` of the e-mail pattern. -/
def isLocalChar (c : Char) : Bool :=
  c.isAlphanum || c = '.' || c = '_' || c = '%' || c = '+' || c = '-'

/-- The domain class `[A-Za-z0-9.-]` of the e-mail pattern. -/
def isDomainChar (c : Char) : Bool := c.isAlphanum || c = '.' || c = '-'

/-- The final-segment class `[A-Z|a-z]` of the e-mail pattern.  Note that the
character class in the source literally contains `'|'`. -/
def isTldChar (c : Char) : Bool := c.isAlpha || c = '|'

/-- Word-character test lifted to an optional character; a missing character
(string edge) counts as a non-word character, as for `\b`. -/
def wordAt : Option Char → Bool
  | none => false
  | some c => isWordChar c

/-- Word boundary `\b`: the position between characters `a` and `b` is a word boundary. -/
def isBoundary (a b : Option Char) : Bool := wordAt a != wordAt b

/-- Backtracking over the `[A-Z|a-z]{2,}\b` tail: try segment lengths from
`k` downwards (greedy), requiring at least 2 characters and a word boundary
after the segment.  `l3` is the text following the dot. -/
def tldTry (l3 : List Char) : Nat → Option Nat
  | 0 => none
  | n + 1 =>
    if 2 ≤ n + 1 ∧ isBoundary (l3.get? n) (l3.get? (n + 1)) then some (n + 1)
    else tldTry l3 n

/-- Backtracking over `[A-Za-z0-9.-]+\.[A-Z|a-z]{2,}\b`: try domain lengths
from `k` downwards (greedy), requiring a literal dot after the domain run and
a successful tail match.  Returns the total length consumed after the `@`. -/
def domTry (l2 : List Char) : Nat → Option Nat
  | 0 => none
  | n + 1 =>
    if l2.get? (n + 1) = some '.' then
      match tldTry (l2.drop (n + 2)) ((l2.drop (n + 2)).takeWhile isTldChar).length with
      | some c => some (n + 2 + c)
      | none => domTry l2 n
    else domTry l2 n

/-- Attempt to match the e-mail pattern at the head of `l`, where `prev` is
the character just before `l` in the scanned text.  Returns the matched
length.  The `[A-Za-z0-9._%+-]+` run needs no backtracking because `@` is not
in its class. -/
def matchLen (prev : Option Char) (l : List Char) : Option Nat :=
  if isBoundary prev l.head? then
    if (l.takeWhile isLocalChar).length = 0 then none
    else if l.get? (l.takeWhile isLocalChar).length = some '@' then
      match domTry (l.drop ((l.takeWhile isLocalChar).length + 1))
          (((l.drop ((l.takeWhile isLocalChar).length + 1)).takeWhile
            isDomainChar).length) with
      | some m => some ((l.takeWhile isLocalChar).length + 1 + m)
      | none => none
    else none
  else none

/-- The scan loop of `re.findall`: try to match at each position, emit the
match and resume right after it, otherwise advance one character.  `fuel`
only bounds the recursion; each step consumes at least one character, so
`length + 1` fuel never runs out. -/
def reScan : Nat → Option Char → List Char → List String
  | 0, _, _ => []
  | _ + 1, _, [] => []
  | fuel + 1, prev, c :: rest =>
    match matchLen prev (c :: rest) with
    | some n =>
        String.mk ((c :: rest).take n) ::
          reScan fuel ((c :: rest).get? (n - 1)) (rest.drop (n - 1))
    | none => reScan fuel (some c) rest

/-- Model of `re.findall(EMAIL_PATTERN, text)`: all matches, in order, duplicates
retained. -/
def findallEmails (text : String) : List String :=
  reScan (text.data.length + 1) none text.data

/-- The seen-set accumulation used both by Python `set` construction over
extracted matches and by `remove_duplicates`: keep an element exactly when
its key was not seen before. -/
def dedupBy {α κ : Type} [DecidableEq κ] (key : α → κ) (seen : List κ) :
    List α → List α
  | [] => []
  | x :: xs =>
    if key x ∈ seen then dedupBy key seen xs
    else x :: dedupBy key (key x :: seen) xs

/-- Model of `set(re.findall(...))` over one affiliation text: the distinct extracted
addresses (first-occurrence order as the canonical enumeration). -/
def extractEmailSet (text : String) : List String :=
  dedupBy id [] (findallEmails text)

/-- Python `str.lower()`: lowercase every character. -/
def pyLower (s : String) : String := String.mk (s.data.map Char.toLower)

/-- Python `str.strip()`: drop leading and trailing whitespace. -/
def pyStrip (s : String) : String :=
  String.mk (((s.data.dropWhile Char.isWhitespace).reverse.dropWhile
    Char.isWhitespace).reverse)

/-- Python substring test `needle in hay` restricted to a startsWith check at
the current position. -/
def startsWithSeq : List Char → List Char → Bool
  | [], _ => true
  | _ :: _, [] => false
  | a :: as, b :: bs => a = b && startsWithSeq as bs

/-- Python substring test `needle in hay` over character lists: the needle
occurs contiguously somewhere in the haystack (the empty needle always does). -/
def containsSeq (needle : List Char) : List Char → Bool
  | [] => startsWithSeq needle []
  | c :: rest => startsWithSeq needle (c :: rest) || containsSeq needle rest

/-- Python `needle in hay` on strings. -/
def strContains (hay needle : String) : Bool := containsSeq needle.data hay.data

/-- One `<Author>` element, as read by `fetch_article_details`:
`LastName` / `ForeName` text and the text of the author's (first)
`Affiliation` descendant.  A missing element or a `None` text is `none`. -/
structure AuthorEntry where
  lastName : Option String
  firstName : Option String
  affiliation : Option String
deriving DecidableEq, Repr

/-- One `<PubmedArticle>`: title and abstract text, the `<Author>` entries,
and the affiliation texts that are not nested inside an `<Author>`. -/
structure ArticleRecord where
  title : Option String
  abstract : Option String
  authors : List AuthorEntry
  otherAffiliations : List String
deriving DecidableEq, Repr

/-- Configuration: the `filters` dictionary built for `fetch_article_details`.  The three
text filters use Python truthiness: the empty string disables them. -/
structure FilterConfig where
  only_with_emails : Bool
  only_known_authors : Bool
  enable_keyword_filter : Bool
  keywords_list : List String
  author_filter : String
  title_filter : String
  email_domain_filter : String
deriving DecidableEq, Repr

/-- One row appended to `results`. -/
structure ResultRow where
  title : String
  author : String
  email : String
deriving DecidableEq, Repr

/-- Source function `is_keyword_related(title, abstract, keywords_list)`:
vacuously true on an empty keyword list, otherwise some keyword (lowercased)
occurs in the lowercased `f"{title} {abstract}"`. -/
def is_keyword_related (title abstract : String) (keywords_list : List String) : Bool :=
  if keywords_list = [] then true
  else keywords_list.any fun keyword =>
    strContains (pyLower (title ++ " " ++ abstract)) (pyLower keyword)

/-- The author-name resolution of `fetch_article_details` (lines 194-198):
start from `"Unknown Author"`, overwrite with the stripped last name when the
last-name text is truthy, and prepend the stripped first name when its text
is truthy and strips to something non-empty. -/
def authorDisplayName (lastName firstName : Option String) : String :=
  match lastName with
  | none => "Unknown Author"
  | some l =>
    if l = "" then "Unknown Author"
    else
      match firstName with
      | none => pyStrip l
      | some f =>
        if f = "" ∨ pyStrip f = "" then pyStrip l
        else pyStrip f ++ " " ++ pyStrip l

/-- Skip test for `only_known_authors` (line 191): the author is skipped when
the `LastName` element is missing, its text is `None`/empty, or strips to
empty. -/
def lastNameBlank (a : AuthorEntry) : Bool :=
  match a.lastName with
  | none => true
  | some l => l = "" || pyStrip l = ""

/-- The author's own e-mail set (lines 205-209): the matches extracted from
the author's own affiliation text, empty when that text is absent. -/
def authorOwnEmails (affiliation : Option String) : List String :=
  match affiliation with
  | none => []
  | some t => extractEmailSet t

/-- Author e-mail resolution (lines 205-213): the author's own set, replaced
by the article-level set when the own set is empty and the article-level set
is not. -/
def resolveEmails (affiliation : Option String) (article_emails : List String) :
    List String :=
  if authorOwnEmails affiliation = [] ∧ article_emails ≠ [] then article_emails
  else authorOwnEmails affiliation

/-- The per-author body of the loop in `fetch_article_details`
(lines 184-236): known-author skip, name filter, e-mail resolution, e-mail
presence filter, then one row per resolved e-mail surviving the domain
filter, or the sentinel row when there is no resolved e-mail. -/
def processAuthor (filters : FilterConfig) (title : String)
    (article_emails : List String) (a : AuthorEntry) : List ResultRow :=
  if filters.only_known_authors ∧ lastNameBlank a then []
  else if filters.author_filter ≠ "" ∧
      strContains (pyLower (authorDisplayName a.lastName a.firstName))
        (pyLower filters.author_filter) = false then []
  else if filters.only_with_emails ∧ resolveEmails a.affiliation article_emails = [] then []
  else if resolveEmails a.affiliation article_emails ≠ [] then
    (resolveEmails a.affiliation article_emails).filterMap fun email =>
      if filters.email_domain_filter ≠ "" ∧
          strContains (pyLower email) (pyLower filters.email_domain_filter) = false then
        none
      else some ⟨title, authorDisplayName a.lastName a.firstName, email⟩
  else [⟨title, authorDisplayName a.lastName a.firstName, "No email found"⟩]

/-- All affiliation texts of a record, as found by
`article.findall('.//Affiliation')`: this XPath matches every `Affiliation`
descendant, including those nested inside individual `<Author>` elements. -/
def allAffiliationTexts (art : ArticleRecord) : List String :=
  art.otherAffiliations ++ art.authors.filterMap (·.affiliation)

/-- The article-level e-mail set `article_emails` (lines 176-181): the union
of the matches over every affiliation text of the record. -/
def articleEmails (art : ArticleRecord) : List String :=
  dedupBy id [] ((allAffiliationTexts art).flatMap findallEmails)

/-- Title defaulting (line 158): missing element or `None`/empty text
becomes `"No title"`. -/
def recordTitle (art : ArticleRecord) : String :=
  match art.title with
  | none => "No title"
  | some t => if t = "" then "No title" else t

/-- Abstract defaulting (line 162): missing element or `None` text becomes
the empty string. -/
def recordAbstract (art : ArticleRecord) : String :=
  match art.abstract with
  | none => ""
  | some t => t

/-- The per-article body of `fetch_article_details` (lines 155-236):
title/abstract defaulting, record-level keyword and title filters, then the
author loop. -/
def processArticle (filters : FilterConfig) (art : ArticleRecord) : List ResultRow :=
  if filters.enable_keyword_filter ∧
      is_keyword_related (recordTitle art) (recordAbstract art)
        filters.keywords_list = false then []
  else if filters.title_filter ≠ "" ∧
      strContains (pyLower (recordTitle art)) (pyLower filters.title_filter) = false then []
  else
    art.authors.flatMap (processAuthor filters (recordTitle art) (articleEmails art))

/-- The articles delivered by one batch fetch: none on a transport or parse
failure, the parsed records otherwise. -/
def batchArticles : Except String (List ArticleRecord) → List ArticleRecord
  | .error _ => []
  | .ok arts => arts

/-- The batch loop of `fetch_article_details` (lines 136-242) with the
network abstracted: each batch either fails (caught `except`, batch skipped)
or yields records whose rows are appended to the accumulator `results`. -/
def fetchLoop (filters : FilterConfig) :
    List (Except String (List ArticleRecord)) → List ResultRow → List ResultRow
  | [], results => results
  | b :: rest, results =>
    match b with
    | .error _ => fetchLoop filters rest results
    | .ok arts =>
        fetchLoop filters rest (results ++ arts.flatMap (processArticle filters))

/-- Model of `fetch_article_details` over pre-fetched batch outcomes: the accumulated
row list. -/
def fetch_article_details (filters : FilterConfig)
    (batches : List (Except String (List ArticleRecord))) : List ResultRow :=
  fetchLoop filters batches []

/-- The normalized deduplication key of `remove_duplicates` (lines 255-259):
strip then lowercase each of title, author, e-mail. -/
def normKey (r : ResultRow) : String × String × String :=
  (pyLower (pyStrip r.title), pyLower (pyStrip r.author), pyLower (pyStrip r.email))

/-- Source function `remove_duplicates` (lines 249-265): keep a row when its normalized key
is not in the `seen` set, adding kept keys to the set. -/
def remove_duplicates (data : List ResultRow) : List ResultRow :=
  dedupBy normKey [] data

/-- Spec-side characterization of deduplication, following the spec's words:
a row is kept exactly when its normalized key has not appeared in any
earlier row, where `earlier` carries the keys of all rows already passed
(kept or dropped). -/
def dedupSpecKeepFirst (earlier : List (String × String × String)) :
    List ResultRow → List ResultRow
  | [] => []
  | r :: rest =>
    (if normKey r ∈ earlier then [] else [r]) ++
      dedupSpecKeepFirst (normKey r :: earlier) rest

/-- The shape carved out by the e-mail pattern on a character list: a
non-empty local part, `@`, a non-empty domain part, a dot, and a final
segment of at least two characters, with each part drawn from its class. -/
def emailShapeData (s : List Char) : Prop :=
  ∃ a d t : List Char,
    s = a ++ '@' :: (d ++ '.' :: t) ∧
    a ≠ [] ∧ d ≠ [] ∧ 2 ≤ t.length ∧
    (∀ c ∈ a, isLocalChar c = true) ∧
    (∀ c ∈ d, isDomainChar c = true) ∧
    (∀ c ∈ t, isTldChar c = true)

/-- The same shape read off a string. -/
def emailShape (s : String) : Prop := emailShapeData s.data

/-- Last character of `prev` followed by a character list: the character just
before the position after the list, used to phrase boundary occurrences. -/
def lastOr (prev : Option Char) : List Char → Option Char
  | [] => prev
  | c :: rest => lastOr (some c) rest

/-! ### List helpers -/

theorem mem_take_of_le_takeWhile {p : Char → Bool} :
    ∀ (l : List Char) (n : Nat), n ≤ (l.takeWhile p).length →
      ∀ c ∈ l.take n, p c = true := by
  intro l
  induction l with
  | nil => intro n _ c hc; simp at hc
  | cons x xs ih =>
    intro n hn c hc
    cases n with
    | zero => simp at hc
    | succ m =>
      by_cases hx : p x = true
      · simp only [List.takeWhile, hx] at hn
        simp only [List.take, List.mem_cons] at hc
        rcases hc with rfl | hc
        · exact hx
        · exact ih m (Nat.le_of_succ_le_succ hn) c hc
      · simp only [List.takeWhile, Bool.not_eq_true] at hx
        simp [hx] at hn

theorem drop_of_get? {α : Type} :
    ∀ (l : List α) (i : Nat) (x : α), l.get? i = some x →
      l.drop i = x :: l.drop (i + 1) := by
  intro l
  induction l with
  | nil => intro i x h; simp at h
  | cons y ys ih =>
    intro i x h
    cases i with
    | zero => simp_all
    | succ j =>
      simp only [List.get?] at h
      simpa using ih j x h

theorem lt_length_of_get? {α : Type} :
    ∀ (l : List α) (i : Nat) (x : α), l.get? i = some x → i < l.length := by
  intro l
  induction l with
  | nil => intro i x h; simp at h
  | cons y ys ih =>
    intro i x h
    cases i with
    | zero => simp
    | succ j =>
      simp only [List.get?] at h
      exact Nat.succ_lt_succ (ih j x h)

theorem get?_drop_add {α : Type} :
    ∀ (l : List α) (m n : Nat), (l.drop m).get? n = l.get? (m + n) := by
  intro l
  induction l with
  | nil => intro m n; simp
  | cons c rest ih =>
    intro m n
    cases m with
    | zero => simp
    | succ k =>
      have hidx : k + 1 + n = (k + n) + 1 := by omega
      rw [hidx]
      exact ih k n

theorem head?_drop {α : Type} :
    ∀ (l : List α) (n : Nat), (l.drop n).head? = l.get? n := by
  intro l
  induction l with
  | nil => intro n; cases n <;> rfl
  | cons c rest ih =>
    intro n
    cases n with
    | zero => rfl
    | succ k => exact ih k

theorem head?_take {α : Type} :
    ∀ (l : List α) (n : Nat), 1 ≤ n → (l.take n).head? = l.head? := by
  intro l n h
  cases l with
  | nil => cases n <;> rfl
  | cons c rest =>
    cases n with
    | zero => omega
    | succ k => rfl

theorem lastOr_append (prev : Option Char) :
    ∀ (xs ys : List Char), lastOr prev (xs ++ ys) = lastOr (lastOr prev xs) ys := by
  intro xs
  induction xs generalizing prev with
  | nil => intro ys; rfl
  | cons c rest ih => intro ys; exact ih (some c) ys

theorem lastOr_eq_get? :
    ∀ (xs : List Char) (prev : Option Char), xs ≠ [] →
      lastOr prev xs = xs.get? (xs.length - 1) := by
  intro xs
  induction xs with
  | nil => intro prev h; exact absurd rfl h
  | cons c rest ih =>
    intro prev _
    cases rest with
    | nil => rfl
    | cons d rest2 =>
      show lastOr (some c) (d :: rest2) = (c :: d :: rest2).get? (rest2.length + 1)
      rw [ih (some c) (by simp)]
      rfl

theorem takeWhile_all {p : Char → Bool} :
    ∀ l : List Char, (∀ c ∈ l, p c = true) → l.takeWhile p = l := by
  intro l
  induction l with
  | nil => intro _; rfl
  | cons c rest ih =>
    intro h
    rw [List.takeWhile_cons, if_pos (h c (List.mem_cons_self _ _))]
    rw [ih fun x hx => h x (List.mem_cons_of_mem _ hx)]

theorem takeWhile_append_stop {p : Char → Bool} :
    ∀ (xs : List Char) (y : Char) (ys : List Char),
      (∀ c ∈ xs, p c = true) → p y = false →
      (xs ++ y :: ys).takeWhile p = xs := by
  intro xs
  induction xs with
  | nil =>
    intro y ys _ hy
    rw [List.nil_append, List.takeWhile_cons, if_neg (by rw [hy]; exact Bool.false_ne_true)]
  | cons c rest ih =>
    intro y ys hall hy
    rw [List.cons_append, List.takeWhile_cons,
      if_pos (hall c (List.mem_cons_self _ _)),
      ih y ys (fun x hx => hall x (List.mem_cons_of_mem _ hx)) hy]

theorem get?_append_len {α : Type} :
    ∀ (xs : List α) (y : α) (ys : List α),
      (xs ++ y :: ys).get? xs.length = some y := by
  intro xs
  induction xs with
  | nil => intro y ys; rfl
  | cons c rest ih => intro y ys; exact ih y ys

theorem drop_append_len {α : Type} :
    ∀ (xs : List α) (y : α) (ys : List α),
      (xs ++ y :: ys).drop (xs.length + 1) = ys := by
  intro xs
  induction xs with
  | nil => intro y ys; rfl
  | cons c rest ih => intro y ys; exact ih y ys

/-! ### Soundness of the e-mail matcher -/

theorem tldTry_sound (l3 : List Char) :
    ∀ (k c : Nat), tldTry l3 k = some c →
      2 ≤ c ∧ c ≤ k ∧ isBoundary (l3.get? (c - 1)) (l3.get? c) = true := by
  intro k
  induction k with
  | zero => intro c h; simp [tldTry] at h
  | succ n ih =>
    intro c h
    by_cases hb : 2 ≤ n + 1 ∧ isBoundary (l3.get? n) (l3.get? (n + 1)) = true
    · simp only [tldTry, if_pos hb] at h
      cases h
      exact ⟨hb.1, Nat.le_refl _, hb.2⟩
    · simp only [tldTry, if_neg hb] at h
      have h2 := ih c h
      exact ⟨h2.1, Nat.le_succ_of_le h2.2.1, h2.2.2⟩

theorem domTry_sound (l2 : List Char) :
    ∀ (k m : Nat), domTry l2 k = some m →
      ∃ b c, m = b + 1 + c ∧ 1 ≤ b ∧ b ≤ k ∧ l2.get? b = some '.' ∧
        2 ≤ c ∧ c ≤ ((l2.drop (b + 1)).takeWhile isTldChar).length ∧
        isBoundary ((l2.drop (b + 1)).get? (c - 1))
          ((l2.drop (b + 1)).get? c) = true := by
  intro k
  induction k with
  | zero => intro m h; simp [domTry] at h
  | succ n ih =>
    intro m h
    by_cases hdot : l2.get? (n + 1) = some '.'
    · simp only [domTry, if_pos hdot] at h
      rcases htld : tldTry (l2.drop (n + 2)) ((l2.drop (n + 2)).takeWhile isTldChar).length
        with _ | c
      · rw [htld] at h
        rcases ih m h with ⟨b, c, rfl, hb1, hbk, hbd, hc2, hct, hcb⟩
        exact ⟨b, c, rfl, hb1, Nat.le_succ_of_le hbk, hbd, hc2, hct, hcb⟩
      · rw [htld] at h
        cases h
        have hc := tldTry_sound _ _ _ htld
        refine ⟨n + 1, c, by omega, by omega, Nat.le_refl _, hdot, hc.1, ?_, ?_⟩
        · have hstep : n + 2 = (n + 1) + 1 := rfl
          rw [hstep] at hc
          exact hc.2.1
        · have hstep : n + 2 = (n + 1) + 1 := rfl
          rw [hstep] at hc
          exact hc.2.2
    · simp only [domTry, if_neg hdot] at h
      rcases ih m h with ⟨b, c, rfl, hb1, hbk, hbd, hc2, hct, hcb⟩
      exact ⟨b, c, rfl, hb1, Nat.le_succ_of_le hbk, hbd, hc2, hct, hcb⟩

theorem matchLen_sound (prev : Option Char) (l : List Char) (n : Nat)
    (h : matchLen prev l = some n) : emailShapeData (l.take n) := by
  unfold matchLen at h
  by_cases hbound : isBoundary prev l.head? = true
  · rw [if_pos hbound] at h
    set a := (l.takeWhile isLocalChar).length with ha
    by_cases ha0 : a = 0
    · simp [ha0] at h
    · rw [if_neg ha0] at h
      by_cases hat : l.get? a = some '@'
      · rw [if_pos hat] at h
        set l2 := l.drop (a + 1) with hl2
        rcases hdom : domTry l2 ((l2.takeWhile isDomainChar).length) with _ | m
        · rw [hdom] at h; cases h
        · rw [hdom] at h
          cases h
          rcases domTry_sound l2 _ _ hdom with ⟨b, c, rfl, hb1, hbk, hbd, hc2, hct, -⟩
          have haLen : a ≤ l.length := Nat.le_of_lt (lt_length_of_get? l a '@' hat)
          have hbLen : b ≤ l2.length := Nat.le_of_lt (lt_length_of_get? l2 b '.' hbd)
          have hctLen : c ≤ (l2.drop (b + 1)).length :=
            Nat.le_trans hct (List.takeWhile_prefix _).length_le
          refine ⟨l.take a, l2.take b, (l2.drop (b + 1)).take c, ?_, ?_, ?_, ?_, ?_, ?_, ?_⟩
          · have h1 : a + 1 + (b + 1 + c) = a + (1 + (b + (1 + c))) := by omega
            rw [h1, List.take_add, drop_of_get? l a '@' hat]
            have h2 : 1 + (b + (1 + c)) = (b + (1 + c)) + 1 := by omega
            rw [h2, List.take_succ_cons, ← hl2, List.take_add, drop_of_get? l2 b '.' hbd]
            have h3 : 1 + c = c + 1 := by omega
            rw [h3, List.take_succ_cons]
          · intro he
            have h0 := congrArg List.length he
            rw [List.length_take] at h0
            simp only [List.length_nil] at h0
            omega
          · intro he
            have h0 := congrArg List.length he
            rw [List.length_take] at h0
            simp only [List.length_nil] at h0
            omega
          · rw [List.length_take]
            omega
          · exact mem_take_of_le_takeWhile l a (Nat.le_of_eq ha)
          · exact mem_take_of_le_takeWhile l2 b hbk
          · exact mem_take_of_le_takeWhile (l2.drop (b + 1)) c hct
      · rw [if_neg hat] at h
        cases h
  · rw [if_neg hbound] at h
    cases h

theorem matchLen_facts (prev : Option Char) (l : List Char) (n : Nat)
    (h : matchLen prev l = some n) :
    1 ≤ n ∧ n ≤ l.length ∧ isBoundary prev l.head? = true ∧
      isBoundary (l.get? (n - 1)) (l.get? n) = true := by
  unfold matchLen at h
  by_cases hbound : isBoundary prev l.head? = true
  · rw [if_pos hbound] at h
    set a := (l.takeWhile isLocalChar).length with ha
    by_cases ha0 : a = 0
    · simp [ha0] at h
    · rw [if_neg ha0] at h
      by_cases hat : l.get? a = some '@'
      · rw [if_pos hat] at h
        set l2 := l.drop (a + 1) with hl2
        rcases hdom : domTry l2 ((l2.takeWhile isDomainChar).length) with _ | m
        · rw [hdom] at h; cases h
        · rw [hdom] at h
          cases h
          rcases domTry_sound l2 _ _ hdom with ⟨b, c, rfl, hb1, hbk, hbd, hc2, hct, hcb⟩
          have haLen : a < l.length := lt_length_of_get? l a '@' hat
          have hbLen : b < l2.length := lt_length_of_get? l2 b '.' hbd
          have hctLen : c ≤ (l2.drop (b + 1)).length :=
            Nat.le_trans hct (List.takeWhile_prefix _).length_le
          have hl2len : l2.length = l.length - (a + 1) := by
            rw [hl2]; exact List.length_drop _ _
          have hdl : (l2.drop (b + 1)).length = l2.length - (b + 1) :=
            List.length_drop _ _
          refine ⟨by omega, by omega, hbound, ?_⟩
          have e1 : (l2.drop (b + 1)).get? (c - 1) =
              l.get? (a + 1 + (b + 1 + c) - 1) := by
            rw [get?_drop_add, hl2, get?_drop_add]
            congr 1
            omega
          have e2 : (l2.drop (b + 1)).get? c = l.get? (a + 1 + (b + 1 + c)) := by
            rw [get?_drop_add, hl2, get?_drop_add]
          rw [e1, e2] at hcb
          exact hcb
      · rw [if_neg hat] at h
        cases h
  · rw [if_neg hbound] at h
    cases h

theorem reScan_nil : ∀ (fuel : Nat) (prev : Option Char), reScan fuel prev [] = [] := by
  intro fuel prev
  cases fuel <;> rfl

theorem reScan_occurs :
    ∀ (fuel : Nat) (prev : Option Char) (l : List Char) (e : String),
      e ∈ reScan fuel prev l →
      ∃ pre post : List Char, l = pre ++ e.data ++ post ∧
        isBoundary (lastOr prev pre) e.data.head? = true ∧
        isBoundary (lastOr none e.data) post.head? = true := by
  intro fuel
  induction fuel with
  | zero => intro prev l e h; simp [reScan] at h
  | succ f ih =>
    intro prev l e h
    cases l with
    | nil => simp [reScan] at h
    | cons c rest =>
      rcases hm : matchLen prev (c :: rest) with _ | n
      · rw [reScan, hm] at h
        rcases ih (some c) rest e h with ⟨pre, post, heq, hb1, hb2⟩
        refine ⟨c :: pre, post, ?_, hb1, hb2⟩
        rw [List.cons_append, List.cons_append, ← heq]
      · rw [reScan, hm] at h
        obtain ⟨hn1, hnlen, hstart, hend⟩ := matchLen_facts prev (c :: rest) n hm
        obtain ⟨k, rfl⟩ : ∃ k, n = k + 1 := ⟨n - 1, by omega⟩
        rcases List.mem_cons.mp h with rfl | h
        · refine ⟨[], (c :: rest).drop (k + 1), ?_, ?_, ?_⟩
          · show c :: rest =
              [] ++ (c :: rest).take (k + 1) ++ (c :: rest).drop (k + 1)
            rw [List.nil_append, List.take_append_drop]
          · show isBoundary prev ((c :: rest).take (k + 1)).head? = true
            rw [head?_take _ _ (by omega)]
            exact hstart
          · show isBoundary (lastOr none ((c :: rest).take (k + 1)))
              (((c :: rest).drop (k + 1)).head?) = true
            have htk : (c :: rest).take (k + 1) ≠ [] := by
              rw [List.take_succ_cons]
              exact List.cons_ne_nil _ _
            have hlen : ((c :: rest).take (k + 1)).length = k + 1 := by
              rw [List.length_take]
              simp only [List.length_cons] at hnlen ⊢
              omega
            rw [lastOr_eq_get? _ none htk, hlen,
              List.get?_take (show k + 1 - 1 < k + 1 by omega), head?_drop]
            exact hend
        · rcases ih ((c :: rest).get? (k + 1 - 1)) (rest.drop (k + 1 - 1)) e h
            with ⟨pre, post, heq, hb1, hb2⟩
          have hdd : (c :: rest).drop (k + 1) = pre ++ e.data ++ post := heq
          refine ⟨(c :: rest).take (k + 1) ++ pre, post, ?_, ?_, hb2⟩
          · conv_lhs => rw [← List.take_append_drop (k + 1) (c :: rest)]
            rw [hdd]
            simp [List.append_assoc]
          · rw [lastOr_append]
            have htk : (c :: rest).take (k + 1) ≠ [] := by
              rw [List.take_succ_cons]
              exact List.cons_ne_nil _ _
            have hlen : ((c :: rest).take (k + 1)).length = k + 1 := by
              rw [List.length_take]
              simp only [List.length_cons] at hnlen ⊢
              omega
            rw [lastOr_eq_get? _ prev htk, hlen,
              List.get?_take (show k + 1 - 1 < k + 1 by omega)]
            exact hb1

theorem alpha_isDomainChar (c : Char) (h : c.isAlpha = true) :
    isDomainChar c = true := by
  simp [isDomainChar, Char.isAlphanum, h]

theorem alpha_isTldChar (c : Char) (h : c.isAlpha = true) : isTldChar c = true := by
  simp [isTldChar, h]

theorem alpha_isWordChar (c : Char) (h : c.isAlpha = true) :
    isWordChar c = true := by
  simp [isWordChar, Char.isAlphanum, h]

theorem domTry_descend (l2 : List Char) (b : Nat) :
    ∀ k, (∀ i, b < i → i ≤ b + k → l2.get? i ≠ some '.') →
      domTry l2 (b + k) = domTry l2 b := by
  intro k
  induction k with
  | zero => intro _; rfl
  | succ j ih =>
    intro hno
    have hstep : b + (j + 1) = (b + j) + 1 := by omega
    have hdot : ¬ l2.get? (b + j + 1) = some '.' :=
      hno (b + j + 1) (by omega) (by omega)
    rw [hstep]
    simp only [domTry, if_neg hdot]
    exact ih fun i h1 h2 => hno i h1 (by omega)

theorem matchLen_exact (c0 : Char) (a d t : List Char)
    (hw : isWordChar c0 = true)
    (hloc : ∀ c ∈ c0 :: a, isLocalChar c = true)
    (hd : d ≠ []) (hdomc : ∀ c ∈ d, isDomainChar c = true)
    (ht2 : 2 ≤ t.length) (hta : ∀ c ∈ t, c.isAlpha = true) :
    matchLen none ((c0 :: a) ++ '@' :: (d ++ '.' :: t)) =
      some ((c0 :: a) ++ '@' :: (d ++ '.' :: t)).length := by
  have htw : ((c0 :: a) ++ '@' :: (d ++ '.' :: t)).takeWhile isLocalChar = c0 :: a :=
    takeWhile_append_stop (c0 :: a) '@' (d ++ '.' :: t) hloc (by decide)
  have hat : ((c0 :: a) ++ '@' :: (d ++ '.' :: t)).get? (c0 :: a).length = some '@' :=
    get?_append_len (c0 :: a) '@' (d ++ '.' :: t)
  have hdrop : ((c0 :: a) ++ '@' :: (d ++ '.' :: t)).drop ((c0 :: a).length + 1) =
      d ++ '.' :: t := drop_append_len (c0 :: a) '@' (d ++ '.' :: t)
  have hl2all : ∀ c ∈ d ++ '.' :: t, isDomainChar c = true := by
    intro c hc
    rcases List.mem_append.mp hc with hc | hc
    · exact hdomc c hc
    · rcases List.mem_cons.mp hc with rfl | hc
      · decide
      · exact alpha_isDomainChar c (hta c hc)
  have hl2tw : (d ++ '.' :: t).takeWhile isDomainChar = d ++ '.' :: t :=
    takeWhile_all _ hl2all
  have hnodots : ∀ i, d.length < i → i ≤ d.length + (t.length + 1) →
      (d ++ '.' :: t).get? i ≠ some '.' := by
    intro i h1 h2 hdot
    by_cases hilen : i < (d ++ '.' :: t).length
    · have hidx : i = (d.length + 1) + (i - d.length - 1) := by omega
      rw [hidx, ← get?_drop_add (d ++ '.' :: t) (d.length + 1) (i - d.length - 1),
        drop_append_len] at hdot
      have hmem := List.get?_mem hdot
      exact absurd (hta '.' hmem) (by decide)
    · have hnone : (d ++ '.' :: t).get? i = none :=
        List.get?_eq_none.mpr (by omega)
      rw [hnone] at hdot
      cases hdot
  obtain ⟨dk, hdk⟩ : ∃ dk, d.length = dk + 1 :=
    ⟨d.length - 1, by have := List.length_pos.mpr hd; omega⟩
  have hdot_at : (d ++ '.' :: t).get? d.length = some '.' := get?_append_len d '.' t
  have hdropd : (d ++ '.' :: t).drop (d.length + 1) = t := drop_append_len d '.' t
  have httw : t.takeWhile isTldChar = t :=
    takeWhile_all t fun c hc => alpha_isTldChar c (hta c hc)
  obtain ⟨tj, htj⟩ : ∃ tj, t.length = tj + 1 := ⟨t.length - 1, by omega⟩
  have hlast : ∃ ch, t.get? tj = some ch ∧ ch ∈ t := by
    cases hg : t.get? tj with
    | none =>
      have := List.get?_eq_none.mp hg
      omega
    | some ch => exact ⟨ch, rfl, List.get?_mem hg⟩
  have htld : tldTry t t.length = some t.length := by
    rcases hlast with ⟨ch, hch, hchmem⟩
    have hcond : 2 ≤ tj + 1 ∧ isBoundary (t.get? tj) (t.get? (tj + 1)) = true := by
      refine ⟨by omega, ?_⟩
      rw [hch, List.get?_eq_none.mpr (by omega)]
      have hw2 : isWordChar ch = true := alpha_isWordChar ch (hta ch hchmem)
      simp [isBoundary, wordAt, hw2]
    rw [htj]
    simp only [tldTry, if_pos hcond]
  have hlen2 : (d ++ '.' :: t).length = d.length + (t.length + 1) := by
    simp [List.length_append]
  have hdomTry : domTry (d ++ '.' :: t) ((d ++ '.' :: t).length) =
      some (d.length + 1 + t.length) := by
    have h1 : domTry (d ++ '.' :: t) ((d ++ '.' :: t).length) =
        domTry (d ++ '.' :: t) d.length := by
      rw [hlen2]
      exact domTry_descend _ d.length (t.length + 1) hnodots
    have hdot2 : (d ++ '.' :: t).get? (dk + 1) = some '.' := by
      rw [← hdk]; exact hdot_at
    have hdrop2 : (d ++ '.' :: t).drop (dk + 2) = t := by
      have hidx : dk + 2 = d.length + 1 := by omega
      rw [hidx]; exact hdropd
    have h2 : domTry (d ++ '.' :: t) (dk + 1) = some (dk + 2 + t.length) := by
      simp only [domTry, if_pos hdot2, hdrop2, httw, htld]
    rw [h1, hdk, h2]
  have hbound : isBoundary none (((c0 :: a) ++ '@' :: (d ++ '.' :: t)).head?) = true := by
    show isBoundary none (some c0) = true
    simp [isBoundary, wordAt, hw]
  unfold matchLen
  rw [if_pos hbound, htw,
    if_neg (by simp : ¬((c0 :: a).length = 0)), if_pos hat, hdrop, hl2tw, hdomTry]
  show some ((c0 :: a).length + 1 + (d.length + 1 + t.length)) = _
  congr 1
  simp only [List.length_append, List.length_cons]
  omega

theorem reScan_whole (fuel : Nat) (prev : Option Char) (c : Char) (rest : List Char)
    (h : matchLen prev (c :: rest) = some (c :: rest).length) :
    reScan (fuel + 1) prev (c :: rest) = [String.mk (c :: rest)] := by
  rw [reScan, h]
  show String.mk ((c :: rest).take (c :: rest).length) ::
      reScan fuel ((c :: rest).get? ((c :: rest).length - 1))
        (rest.drop ((c :: rest).length - 1)) = [String.mk (c :: rest)]
  rw [List.take_length]
  have hdl : rest.drop ((c :: rest).length - 1) = [] := by
    have hlen : (c :: rest).length - 1 = rest.length := by simp
    rw [hlen]
    exact List.drop_length rest
  rw [hdl, reScan_nil]

theorem extractEmailSet_exact (c0 : Char) (a d t : List Char)
    (hw : isWordChar c0 = true)
    (hloc : ∀ c ∈ c0 :: a, isLocalChar c = true)
    (hd : d ≠ []) (hdomc : ∀ c ∈ d, isDomainChar c = true)
    (ht2 : 2 ≤ t.length) (hta : ∀ c ∈ t, c.isAlpha = true) :
    extractEmailSet (String.mk ((c0 :: a) ++ '@' :: (d ++ '.' :: t))) =
      [String.mk ((c0 :: a) ++ '@' :: (d ++ '.' :: t))] := by
  have hm := matchLen_exact c0 a d t hw hloc hd hdomc ht2 hta
  have hcons : (c0 :: a) ++ '@' :: (d ++ '.' :: t) =
      c0 :: (a ++ '@' :: (d ++ '.' :: t)) := rfl
  rw [hcons] at hm ⊢
  show dedupBy id []
      (reScan ((c0 :: (a ++ '@' :: (d ++ '.' :: t))).length + 1) none
        (c0 :: (a ++ '@' :: (d ++ '.' :: t)))) = _
  rw [show (c0 :: (a ++ '@' :: (d ++ '.' :: t))).length + 1 =
      ((a ++ '@' :: (d ++ '.' :: t)).length + 1) + 1 by simp]
  rw [reScan_whole _ none c0 _ hm]
  rfl

theorem reScan_sound :
    ∀ (fuel : Nat) (prev : Option Char) (l : List Char) (e : String),
      e ∈ reScan fuel prev l → emailShape e := by
  intro fuel
  induction fuel with
  | zero => intro prev l e h; simp [reScan] at h
  | succ f ih =>
    intro prev l e h
    cases l with
    | nil => simp [reScan] at h
    | cons c rest =>
      rcases hm : matchLen prev (c :: rest) with _ | n
      · rw [reScan, hm] at h
        exact ih _ _ _ h
      · rw [reScan, hm] at h
        rcases List.mem_cons.mp h with rfl | h
        · exact matchLen_sound prev (c :: rest) n hm
        · exact ih _ _ _ h

theorem mem_findallEmails_shape (text : String) (e : String)
    (h : e ∈ findallEmails text) : emailShape e :=
  reScan_sound _ _ _ _ h

/-! ### The seen-set accumulation -/

theorem mem_of_mem_dedupBy {α κ : Type} [DecidableEq κ] (key : α → κ) :
    ∀ (l : List α) (seen : List κ) (x : α),
      x ∈ dedupBy key seen l → x ∈ l ∧ key x ∉ seen := by
  intro l
  induction l with
  | nil => intro seen x h; simp [dedupBy] at h
  | cons y ys ih =>
    intro seen x h
    by_cases hy : key y ∈ seen
    · rw [dedupBy, if_pos hy] at h
      have := ih seen x h
      exact ⟨List.mem_cons_of_mem _ this.1, this.2⟩
    · rw [dedupBy, if_neg hy] at h
      rcases List.mem_cons.mp h with rfl | h
      · exact ⟨List.mem_cons_self _ _, hy⟩
      · have := ih _ x h
        refine ⟨List.mem_cons_of_mem _ this.1, fun hs => this.2 ?_⟩
        exact List.mem_cons_of_mem _ hs

theorem mem_dedupBy_id {α : Type} [DecidableEq α] :
    ∀ (l seen : List α) (x : α), x ∈ dedupBy id seen l ↔ x ∈ l ∧ x ∉ seen := by
  intro l
  induction l with
  | nil => intro seen x; simp [dedupBy]
  | cons y ys ih =>
    intro seen x
    constructor
    · intro h
      exact mem_of_mem_dedupBy id (y :: ys) seen x h
    · rintro ⟨hx, hseen⟩
      by_cases hy : (id y : α) ∈ seen
      · rw [dedupBy, if_pos hy]
        rcases List.mem_cons.mp hx with rfl | hx
        · exact absurd hy hseen
        · exact (ih seen x).mpr ⟨hx, hseen⟩
      · rw [dedupBy, if_neg hy]
        rcases List.mem_cons.mp hx with rfl | hx
        · exact List.mem_cons_self _ _
        · by_cases hxy : x = y
          · subst hxy; exact List.mem_cons_self _ _
          · refine List.mem_cons_of_mem _ ((ih _ x).mpr ⟨hx, ?_⟩)
            intro hmem
            rcases List.mem_cons.mp hmem with h | h
            · exact hxy h
            · exact hseen h

theorem nodup_map_dedupBy {α κ : Type} [DecidableEq κ] (key : α → κ) :
    ∀ (l : List α) (seen : List κ), ((dedupBy key seen l).map key).Nodup := by
  intro l
  induction l with
  | nil => intro seen; simp [dedupBy]
  | cons y ys ih =>
    intro seen
    by_cases hy : key y ∈ seen
    · rw [dedupBy, if_pos hy]; exact ih seen
    · rw [dedupBy, if_neg hy]
      refine List.nodup_cons.mpr ⟨?_, ih _⟩
      intro hmem
      rcases List.mem_map.mp hmem with ⟨x, hx, hkey⟩
      have := mem_of_mem_dedupBy key ys (key y :: seen) x hx
      exact this.2 (hkey ▸ List.mem_cons_self _ _)

theorem dedupBy_eq_self {α κ : Type} [DecidableEq κ] (key : α → κ) :
    ∀ (l : List α) (seen : List κ), (l.map key).Nodup →
      (∀ x ∈ l, key x ∉ seen) → dedupBy key seen l = l := by
  intro l
  induction l with
  | nil => intro seen _ _; rfl
  | cons y ys ih =>
    intro seen hnodup hout
    rw [List.map_cons, List.nodup_cons] at hnodup
    rw [dedupBy, if_neg (hout y (List.mem_cons_self _ _))]
    congr 1
    refine ih _ hnodup.2 ?_
    intro x hx hmem
    rcases List.mem_cons.mp hmem with h | h
    · exact hnodup.1 (h ▸ List.mem_map_of_mem key hx)
    · exact hout x (List.mem_cons_of_mem _ hx) h

theorem dedupBy_eq_dedupSpecKeepFirst :
    ∀ (l : List ResultRow) (seen earlier : List (String × String × String)),
      (∀ k, k ∈ seen ↔ k ∈ earlier) →
      dedupBy normKey seen l = dedupSpecKeepFirst earlier l := by
  intro l
  induction l with
  | nil => intro seen earlier _; rfl
  | cons r rest ih =>
    intro seen earlier hiff
    by_cases hr : normKey r ∈ seen
    · rw [dedupBy, if_pos hr, dedupSpecKeepFirst, if_pos ((hiff _).mp hr)]
      simp only [List.nil_append]
      refine ih seen (normKey r :: earlier) fun k => ?_
      constructor
      · intro h; exact List.mem_cons_of_mem _ ((hiff k).mp h)
      · intro h
        rcases List.mem_cons.mp h with rfl | h
        · exact hr
        · exact (hiff k).mpr h
    · rw [dedupBy, if_neg hr, dedupSpecKeepFirst,
        if_neg (fun h => hr ((hiff _).mpr h))]
      simp only [List.singleton_append, List.cons.injEq, true_and]
      refine ih (normKey r :: seen) (normKey r :: earlier) fun k => ?_
      simp only [List.mem_cons]
      exact or_congr Iff.rfl (hiff k)

/-! ### Membership through the pipeline -/

theorem mem_resolveEmails (affiliation : Option String)
    (article_emails : List String) (e : String)
    (h : e ∈ resolveEmails affiliation article_emails) :
    e ∈ article_emails ∨ ∃ t, affiliation = some t ∧ e ∈ findallEmails t := by
  unfold resolveEmails at h
  split_ifs at h with hcase
  · exact Or.inl h
  · cases haff : affiliation with
    | none => rw [haff] at h; simp [authorOwnEmails] at h
    | some t =>
      rw [haff] at h
      simp only [authorOwnEmails, extractEmailSet] at h
      exact Or.inr ⟨t, rfl, ((mem_dedupBy_id _ _ _).mp h).1⟩

theorem mem_articleEmails (art : ArticleRecord) (e : String)
    (h : e ∈ articleEmails art) :
    ∃ t ∈ allAffiliationTexts art, e ∈ findallEmails t := by
  unfold articleEmails at h
  have := ((mem_dedupBy_id _ _ _).mp h).1
  exact List.mem_flatMap.mp this

theorem mem_processAuthor (filters : FilterConfig) (title : String)
    (article_emails : List String) (a : AuthorEntry) (r : ResultRow)
    (h : r ∈ processAuthor filters title article_emails a) :
    r.title = title ∧ r.author = authorDisplayName a.lastName a.firstName ∧
      (r.email = "No email found" ∨ r.email ∈ resolveEmails a.affiliation article_emails) := by
  unfold processAuthor at h
  split_ifs at h with h1 h2 h3 h4
  · simp at h
  · simp at h
  · simp at h
  · rcases List.mem_filterMap.mp h with ⟨e, he, hr⟩
    split_ifs at hr
    injection hr with hr
    subst hr
    exact ⟨rfl, rfl, Or.inr he⟩
  · rcases List.mem_singleton.mp h with rfl
    exact ⟨rfl, rfl, Or.inl rfl⟩

theorem mem_processArticle (filters : FilterConfig) (art : ArticleRecord)
    (r : ResultRow) (h : r ∈ processArticle filters art) :
    ∃ a ∈ art.authors,
      r ∈ processAuthor filters (recordTitle art) (articleEmails art) a := by
  unfold processArticle at h
  split_ifs at h
  · simp at h
  · simp at h
  · exact List.mem_flatMap.mp h

theorem fetchLoop_acc (filters : FilterConfig) :
    ∀ (batches : List (Except String (List ArticleRecord)))
      (acc : List ResultRow),
      fetchLoop filters batches acc = acc ++ fetchLoop filters batches [] := by
  intro batches
  induction batches with
  | nil => intro acc; simp [fetchLoop]
  | cons b rest ih =>
    intro acc
    cases b with
    | error msg => simp only [fetchLoop]; exact ih acc
    | ok arts =>
      simp only [fetchLoop, List.nil_append]
      rw [ih (acc ++ arts.flatMap (processArticle filters)),
        ih (arts.flatMap (processArticle filters)), List.append_assoc]

theorem fetch_eq_flatMap (filters : FilterConfig) :
    ∀ batches : List (Except String (List ArticleRecord)),
      fetch_article_details filters batches =
        batches.flatMap fun b => (batchArticles b).flatMap (processArticle filters) := by
  intro batches
  induction batches with
  | nil => rfl
  | cons b rest ih =>
    cases b with
    | error msg =>
      simp only [fetch_article_details, fetchLoop] at ih ⊢
      simpa [batchArticles] using ih
    | ok arts =>
      simp only [fetch_article_details, fetchLoop, List.nil_append] at ih ⊢
      rw [fetchLoop_acc, ih]
      simp [batchArticles]

theorem mem_fetch (filters : FilterConfig)
    (batches : List (Except String (List ArticleRecord))) (r : ResultRow)
    (h : r ∈ fetch_article_details filters batches) :
    ∃ b ∈ batches, ∃ art ∈ batchArticles b, r ∈ processArticle filters art := by
  rw [fetch_eq_flatMap] at h
  rcases List.mem_flatMap.mp h with ⟨b, hb, h⟩
  rcases List.mem_flatMap.mp h with ⟨art, hart, h⟩
  exact ⟨b, hb, art, hart, h⟩

/-! ### Non-emptiness facts -/

/-- The author's last name is not the pathological case: it is absent, empty,
or strips to something non-empty. -/
def lastNameOk (a : AuthorEntry) : Bool :=
  match a.lastName with
  | none => true
  | some l => if l = "" then true else if pyStrip l = "" then false else true

theorem append_space_ne_empty (x y : String) : x ++ " " ++ y ≠ "" := by
  intro h
  have h2 := congrArg String.data h
  simp [String.data_append] at h2

theorem authorDisplayName_ne_empty (a : AuthorEntry) (h : lastNameOk a = true) :
    authorDisplayName a.lastName a.firstName ≠ "" := by
  unfold lastNameOk at h
  cases hl : a.lastName with
  | none =>
    simp only [authorDisplayName]
    decide
  | some l =>
    rw [hl] at h
    have h2 : (if l = "" then true else if pyStrip l = "" then false else true)
        = true := h
    by_cases hle : l = ""
    · simp only [authorDisplayName, if_pos hle]
      decide
    · rw [if_neg hle] at h2
      have hstrip : pyStrip l ≠ "" := by
        intro hs
        rw [if_pos hs] at h2
        cases h2
      cases hf : a.firstName with
      | none =>
        simp only [authorDisplayName, if_neg hle]
        exact hstrip
      | some f =>
        simp only [authorDisplayName, if_neg hle]
        by_cases hcond : f = "" ∨ pyStrip f = ""
        · rw [if_pos hcond]; exact hstrip
        · rw [if_neg hcond]; exact append_space_ne_empty _ _

theorem emailShape_ne_empty (s : String) (h : emailShape s) : s ≠ "" := by
  rcases h with ⟨a, d, t, hdata, -, -, -, -, -, -⟩
  intro hs
  subst hs
  have h0 := congrArg List.length hdata
  simp [List.length_append] at h0
  omega

/-! ### The claims -/

/-- C1 (counterexample): the claim says a whitespace-only last name resolves
to the literal `"Unknown Author"`, but the code only tests truthiness of the
raw text before stripping, so `"   "` resolves to the empty string. -/
theorem c1_display_name_cex :
    authorDisplayName (some "   ") none ≠ "Unknown Author" ∧
    authorDisplayName (some "   ") none = "" := by
  constructor <;> decide

/-- C1 (amended): the display name is `"Unknown Author"` exactly when the
last name is absent or the empty string; for a non-empty last name it is the
stripped first name, a space, and the stripped last name when the first name
is present with non-blank strip, and the stripped last name alone otherwise
(which is empty for a whitespace-only last name). -/
theorem c1_display_name_amended :
    (∀ firstName, authorDisplayName none firstName = "Unknown Author") ∧
    (∀ firstName, authorDisplayName (some "") firstName = "Unknown Author") ∧
    (∀ l, l ≠ "" → authorDisplayName (some l) none = pyStrip l) ∧
    (∀ l f, l ≠ "" → (f = "" ∨ pyStrip f = "") →
      authorDisplayName (some l) (some f) = pyStrip l) ∧
    (∀ l f, l ≠ "" → f ≠ "" → pyStrip f ≠ "" →
      authorDisplayName (some l) (some f) = pyStrip f ++ " " ++ pyStrip l) := by
  refine ⟨fun fn => rfl, fun fn => rfl, ?_, ?_, ?_⟩
  · intro l hl
    simp only [authorDisplayName, if_neg hl]
  · intro l f hl hf
    simp only [authorDisplayName, if_neg hl, if_pos hf]
  · intro l f hl hf hfs
    simp only [authorDisplayName, if_neg hl,
      if_neg (fun hc => Or.elim hc hf hfs)]

/-- C1 (witness): the amended characterization evaluated on concrete names. -/
theorem c1_display_name_witness :
    authorDisplayName (some "Doe") none = pyStrip "Doe" ∧
    authorDisplayName (some "Doe") (some "  ") = pyStrip "Doe" ∧
    authorDisplayName (some "Doe") (some "Jane") =
      pyStrip "Jane" ++ " " ++ pyStrip "Doe" :=
  ⟨c1_display_name_amended.2.2.1 "Doe" (by decide),
   c1_display_name_amended.2.2.2.1 "Doe" "  " (by decide) (Or.inr (by decide)),
   c1_display_name_amended.2.2.2.2 "Doe" "Jane" (by decide) (by decide) (by decide)⟩

/-- C3: `remove_duplicates` keeps a row exactly when its normalized key
(strip + lowercase on title, author, e-mail) has not appeared in any earlier
row, preserving first-occurrence order; two rows whose keys agree collapse
to the first. -/
theorem c3_remove_duplicates_spec :
    (∀ data : List ResultRow,
      remove_duplicates data = dedupSpecKeepFirst [] data) ∧
    (∀ r s : ResultRow, normKey r = normKey s →
      remove_duplicates [r, s] = [r]) := by
  constructor
  · intro data
    exact dedupBy_eq_dedupSpecKeepFirst data [] [] fun k => Iff.rfl
  · intro r s hkey
    unfold remove_duplicates
    rw [dedupBy, if_neg (List.not_mem_nil _), dedupBy,
      if_pos (List.mem_singleton.mpr hkey.symm)]
    rfl

/-- C3 (witness): two rows differing only in case and surrounding whitespace
collapse to the first. -/
theorem c3_remove_duplicates_witness :
    normKey ⟨"Title A", "John Smith", "j@x.com"⟩ =
      normKey ⟨" title a", "JOHN SMITH", "J@X.COM "⟩ ∧
    remove_duplicates
      [⟨"Title A", "John Smith", "j@x.com"⟩,
       ⟨" title a", "JOHN SMITH", "J@X.COM "⟩] =
      [⟨"Title A", "John Smith", "j@x.com"⟩] :=
  ⟨by decide, c3_remove_duplicates_spec.2 _ _ (by decide)⟩

/-- C8: deduplication is idempotent — a second pass returns its input
unchanged and removes zero further rows. -/
theorem c8_dedup_idempotent :
    ∀ data : List ResultRow,
      remove_duplicates (remove_duplicates data) = remove_duplicates data ∧
      (remove_duplicates data).length -
        (remove_duplicates (remove_duplicates data)).length = 0 := by
  intro data
  have h : remove_duplicates (remove_duplicates data) = remove_duplicates data :=
    dedupBy_eq_self normKey (remove_duplicates data) []
      (nodup_map_dedupBy normKey data []) (fun x _ => List.not_mem_nil _)
  exact ⟨h, by rw [h]; omega⟩

/-- C4: per-author e-mail resolution — the article-level set is used exactly
when the author's own extraction is empty and the article-level set is not;
a non-empty own set is used as is. -/
theorem c4_email_fallback :
    ∀ (affiliation : Option String) (article_emails : List String),
      (authorOwnEmails affiliation = [] → article_emails ≠ [] →
        resolveEmails affiliation article_emails = article_emails) ∧
      (authorOwnEmails affiliation ≠ [] →
        resolveEmails affiliation article_emails = authorOwnEmails affiliation) := by
  intro aff arts
  constructor
  · intro h1 h2
    unfold resolveEmails
    rw [if_pos ⟨h1, h2⟩]
  · intro h1
    unfold resolveEmails
    rw [if_neg fun hc => h1 hc.1]

/-- C4 (witness): an affiliation with no `@` match falls back to the
article-level set; one with a match keeps its own set. -/
theorem c4_email_fallback_witness :
    authorOwnEmails (some "Dept X") = [] ∧
    (["lab@uni.edu"] : List String) ≠ [] ∧
    resolveEmails (some "Dept X") ["lab@uni.edu"] = ["lab@uni.edu"] ∧
    authorOwnEmails (some "a@b.ce") ≠ [] ∧
    resolveEmails (some "a@b.ce") ["lab@uni.edu"] = authorOwnEmails (some "a@b.ce") :=
  ⟨by decide, by decide,
   (c4_email_fallback (some "Dept X") ["lab@uni.edu"]).1 (by decide) (by decide),
   by decide,
   (c4_email_fallback (some "a@b.ce") ["lab@uni.edu"]).2 (by decide)⟩

/-- C5 (counterexample): two failures of the claim on concrete inputs.
First, the claim restricts the final segment to letters, but the class
`[A-Z|a-z]` contains `'|'`, so the extractor returns an address with a
character outside letters/digits/`._%+-@`.  Second, the claim's "exactly the
set of distinct substrings of the form ... bounded by word boundaries" fails
even for letters-only candidates: in `"a@b.cd@e.fg"` the substring
`"cd@e.fg"` has the claimed form (non-empty local part, `@`, non-empty
domain, dot, two-letter tail) and sits between word boundaries, yet the
non-overlapping scan, having consumed `"a@b.cd"`, never returns it. -/
theorem c5_extractor_cex :
    (extractEmailSet "x@y.ab|cd" = ["x@y.ab|cd"] ∧
      '|' ∈ ("x@y.ab|cd" : String).data ∧
      ¬('|'.isAlpha ∨ '|'.isDigit ∨ '|' ∈ ['.', '_', '%', '+', '-', '@'])) ∧
    (extractEmailSet "a@b.cd@e.fg" = ["a@b.cd"] ∧
      ("a@b.cd@e.fg" : String).data =
        ['a', '@', 'b', '.'] ++ ("cd@e.fg" : String).data ++ [] ∧
      isBoundary (lastOr none ['a', '@', 'b', '.'])
        (("cd@e.fg" : String).data.head?) = true ∧
      isBoundary (lastOr none (("cd@e.fg" : String).data))
        (List.head? ([] : List Char)) = true ∧
      ("cd@e.fg" : String).data = ['c', 'd'] ++ '@' :: (['e'] ++ '.' :: ['f', 'g']) ∧
      (∀ c ∈ (['c', 'd'] : List Char), isLocalChar c = true) ∧
      (∀ c ∈ (['e'] : List Char), isDomainChar c = true) ∧
      (∀ c ∈ (['f', 'g'] : List Char), c.isAlpha = true) ∧
      "cd@e.fg" ∉ extractEmailSet "a@b.cd@e.fg") := by
  constructor
  · exact ⟨by decide, by decide, by decide⟩
  · exact ⟨by decide, by decide, by decide, by decide, by decide, by decide,
      by decide, by decide, by decide⟩

/-- C5 (amended): the extractor returns the duplicate-free matches of a
left-to-right, non-overlapping, greedy scan.  Every returned address has the
form local-part `@` domain `.` final-segment with the final segment drawn
from letters-or-`'|'` (at least two characters) — so no returned address
contains a character outside these classes together with `'|'` — and occurs
in the input bounded by word boundaries; an input that is in its entirety a
single address of the claimed form (leading word character, letters-only
final segment) yields exactly its own singleton; an empty or absent input
yields the empty set. -/
theorem c5_extractor_amended :
    (∀ text : String,
      (∀ e ∈ extractEmailSet text, emailShape e) ∧ (extractEmailSet text).Nodup) ∧
    (∀ text e : String, e ∈ extractEmailSet text →
      ∃ pre post : List Char, text.data = pre ++ e.data ++ post ∧
        isBoundary (lastOr none pre) e.data.head? = true ∧
        isBoundary (lastOr none e.data) post.head? = true) ∧
    (∀ (c0 : Char) (a d t : List Char), isWordChar c0 = true →
      (∀ c ∈ c0 :: a, isLocalChar c = true) → d ≠ [] →
      (∀ c ∈ d, isDomainChar c = true) → 2 ≤ t.length →
      (∀ c ∈ t, c.isAlpha = true) →
      extractEmailSet (String.mk ((c0 :: a) ++ '@' :: (d ++ '.' :: t))) =
        [String.mk ((c0 :: a) ++ '@' :: (d ++ '.' :: t))]) ∧
    extractEmailSet "" = [] := by
  refine ⟨?_, ?_, ?_, rfl⟩
  · intro text
    refine ⟨fun e he => mem_findallEmails_shape text e ((mem_dedupBy_id _ _ _).mp he).1, ?_⟩
    have h := nodup_map_dedupBy (id : String → String) (findallEmails text) []
    simpa using h
  · intro text e he
    exact reScan_occurs _ none text.data e ((mem_dedupBy_id _ _ _).mp he).1
  · intro c0 a d t hw hloc hd hdomc ht2 hta
    exact extractEmailSet_exact c0 a d t hw hloc hd hdomc ht2 hta

/-- C5 (witness): a concrete extraction with its shape, its bounded
occurrence in the input, and a whole-string address extracting to itself. -/
theorem c5_extractor_witness :
    "a@b.cd" ∈ extractEmailSet "see a@b.cd please" ∧ emailShape "a@b.cd" ∧
    (∃ pre post : List Char, ("see a@b.cd please" : String).data =
        pre ++ ("a@b.cd" : String).data ++ post ∧
      isBoundary (lastOr none pre) (("a@b.cd" : String).data.head?) = true ∧
      isBoundary (lastOr none (("a@b.cd" : String).data)) post.head? = true) ∧
    extractEmailSet (String.mk (('j' :: "ane".data) ++ '@' ::
        ("uni".data ++ '.' :: "edu".data))) =
      [String.mk (('j' :: "ane".data) ++ '@' :: ("uni".data ++ '.' :: "edu".data))] :=
  ⟨by decide,
   (c5_extractor_amended.1 "see a@b.cd please").1 "a@b.cd" (by decide),
   c5_extractor_amended.2.1 "see a@b.cd please" "a@b.cd" (by decide),
   c5_extractor_amended.2.2.1 'j' "ane".data "uni".data "edu".data (by decide)
     (by decide) (by decide) (by decide) (by decide) (by decide)⟩

theorem filterMap_guard {β : Type} (q : Prop) [Decidable q] (hq : q)
    (p : String → Bool) (f : String → β) :
    ∀ l : List String,
      (l.filterMap fun e => if q ∧ p e = false then none else some (f e)) =
        (l.filter fun e => p e).map f := by
  have hfun : (fun e => if q ∧ p e = false then none else some (f e)) =
      fun e => if p e = false then (none : Option β) else some (f e) := by
    funext e
    by_cases hp : p e = false
    · rw [if_pos ⟨hq, hp⟩, if_pos hp]
    · rw [if_neg (fun hc => hp hc.2), if_neg hp]
  intro l
  rw [hfun]
  induction l with
  | nil => rfl
  | cons x xs ih =>
    rw [List.filterMap_cons, List.filter_cons]
    cases hp : p x with
    | false => simp [hp, ih]
    | true => simp [hp, ih]

/-- C6: with a non-empty domain filter, an author who passes the
known-author and name filters and has a non-empty resolved e-mail set yields
exactly one row per resolved e-mail containing the filter substring
case-insensitively — the filter acts per e-mail, so an author can partially
pass. -/
theorem c6_domain_filter (filters : FilterConfig) (title : String)
    (article_emails : List String) (a : AuthorEntry)
    (hdom : filters.email_domain_filter ≠ "")
    (hknown : ¬(filters.only_known_authors = true ∧ lastNameBlank a = true))
    (hname : ¬(filters.author_filter ≠ "" ∧
      strContains (pyLower (authorDisplayName a.lastName a.firstName))
        (pyLower filters.author_filter) = false))
    (hres : resolveEmails a.affiliation article_emails ≠ []) :
    processAuthor filters title article_emails a =
      ((resolveEmails a.affiliation article_emails).filter fun email =>
          strContains (pyLower email) (pyLower filters.email_domain_filter)).map
        fun email => ⟨title, authorDisplayName a.lastName a.firstName, email⟩ := by
  unfold processAuthor
  rw [if_neg hknown, if_neg hname, if_neg (fun hc => hres hc.2), if_pos hres]
  exact filterMap_guard _ hdom _ _ _

/-- C6 (witness): an author with one `uni.edu` and one `gmail.com` address
keeps exactly the `uni.edu` row. -/
theorem c6_domain_filter_witness :
    (let filters : FilterConfig := ⟨true, true, false, [], "", "", "uni.edu"⟩
     let a : AuthorEntry := ⟨some "Doe", some "Jane", some "a@uni.edu b@gmail.com"⟩
     processAuthor filters "T" [] a =
       ((resolveEmails a.affiliation []).filter fun email =>
           strContains (pyLower email) (pyLower filters.email_domain_filter)).map
         fun email => ⟨"T", authorDisplayName a.lastName a.firstName, email⟩) ∧
    (let a : AuthorEntry := ⟨some "Doe", some "Jane", some "a@uni.edu b@gmail.com"⟩
     processAuthor ⟨true, true, false, [], "", "", "uni.edu"⟩ "T" [] a =
       [⟨"T", "Jane Doe", "a@uni.edu"⟩]) :=
  ⟨c6_domain_filter ⟨true, true, false, [], "", "", "uni.edu"⟩ "T" []
      ⟨some "Doe", some "Jane", some "a@uni.edu b@gmail.com"⟩
      (by decide) (by decide) (by decide) (by decide),
   by decide⟩

/-- C7: the keyword filter is vacuously true on an empty keyword list (and
then the record's fate depends only on the other filters), and on a
non-empty list a record passes exactly when some keyword occurs,
case-insensitively, in the space-joined concatenation of title and
abstract. -/
theorem c7_keyword_filter :
    (∀ title abstract, is_keyword_related title abstract [] = true) ∧
    (∀ title abstract keywords_list, keywords_list ≠ ([] : List String) →
      (is_keyword_related title abstract keywords_list = true ↔
        ∃ k ∈ keywords_list,
          strContains (pyLower (title ++ " " ++ abstract)) (pyLower k) = true)) ∧
    (∀ (filters : FilterConfig) (art : ArticleRecord),
      filters.keywords_list = [] →
      processArticle filters art =
        processArticle { filters with enable_keyword_filter := false } art) := by
  refine ⟨fun t ab => rfl, ?_, ?_⟩
  · intro t ab ks hks
    rw [is_keyword_related, if_neg hks]
    exact List.any_eq_true
  · intro filters art hks
    obtain ⟨owe, oka, ekf, ks, af, tf, ef⟩ := filters
    simp only at hks
    subst hks
    simp [processArticle, is_keyword_related]
    rfl

/-- C7 (witness): the characterization and the vacuous-true law evaluated on
a concrete record. -/
theorem c7_keyword_witness :
    (is_keyword_related "Food reward mechanisms" "" ["food reward"] = true ↔
      ∃ k ∈ ["food reward"],
        strContains (pyLower ("Food reward mechanisms" ++ " " ++ ""))
          (pyLower k) = true) ∧
    processArticle ⟨true, true, true, [], "", "", ""⟩
        ⟨some "T", none, [⟨some "Doe", none, none⟩], []⟩ =
      processArticle ⟨true, true, false, [], "", "", ""⟩
        ⟨some "T", none, [⟨some "Doe", none, none⟩], []⟩ :=
  ⟨c7_keyword_filter.2.1 "Food reward mechanisms" "" ["food reward"] (by decide),
   c7_keyword_filter.2.2 ⟨true, true, true, [], "", "", ""⟩
     ⟨some "T", none, [⟨some "Doe", none, none⟩], []⟩ rfl⟩

/-- The outcome selector for successful batches. -/
def okArticles : Except String (List ArticleRecord) → Option (List ArticleRecord)
  | .ok arts => some arts
  | .error _ => none

theorem okArticles_error (msg : String) : okArticles (Except.error msg) = none := rfl

theorem okArticles_ok (arts : List ArticleRecord) :
    okArticles (Except.ok arts) = some arts := rfl

theorem batchArticles_error (msg : String) :
    batchArticles (Except.error msg) = [] := rfl

theorem batchArticles_ok (arts : List ArticleRecord) :
    batchArticles (Except.ok arts) = arts := rfl

/-- C9: the accumulated result is the concatenation, in order, of the rows
of the successful batches; a failing batch contributes nothing and its
removal leaves every other batch's rows unchanged. -/
theorem c9_batch_isolation :
    (∀ (filters : FilterConfig)
        (batches : List (Except String (List ArticleRecord))),
      fetch_article_details filters batches =
        (batches.filterMap okArticles).flatMap
          fun arts => arts.flatMap (processArticle filters)) ∧
    (∀ (filters : FilterConfig) (pre post : List (Except String (List ArticleRecord)))
        (msg : String),
      fetch_article_details filters (pre ++ Except.error msg :: post) =
        fetch_article_details filters (pre ++ post)) := by
  have key : ∀ (filters : FilterConfig)
      (batches : List (Except String (List ArticleRecord))),
      fetch_article_details filters batches =
        (batches.filterMap okArticles).flatMap
          fun arts => arts.flatMap (processArticle filters) := by
    intro filters batches
    rw [fetch_eq_flatMap]
    induction batches with
    | nil => rfl
    | cons b rest ih =>
      cases b with
      | error msg =>
        simp only [List.flatMap_cons, List.filterMap_cons, okArticles_error,
          batchArticles_error, ih]
        rfl
      | ok arts =>
        simp only [List.flatMap_cons, List.filterMap_cons, okArticles_ok,
          batchArticles_ok, ih]
  refine ⟨key, ?_⟩
  intro filters pre post msg
  rw [key, key, List.filterMap_append, List.filterMap_append]
  rfl

/-- C10: the article-level e-mail set draws from every `Affiliation`
element, including author-scoped ones, so one author's personal e-mail
belongs to the article set and — through the fallback — resolves as the
e-mail of a different author who has no affiliation text. -/
theorem c10_author_email_leak (art : ArticleRecord) (a b : AuthorEntry)
    (e : String) (ha : a ∈ art.authors) (he : e ∈ authorOwnEmails a.affiliation)
    (hb : b ∈ art.authors) (hbnone : b.affiliation = none)
    (hne : articleEmails art ≠ []) :
    e ∈ articleEmails art ∧
      resolveEmails b.affiliation (articleEmails art) = articleEmails art ∧
      e ∈ resolveEmails b.affiliation (articleEmails art) := by
  have hmem : e ∈ articleEmails art := by
    cases haff : a.affiliation with
    | none => rw [haff] at he; simp [authorOwnEmails] at he
    | some t =>
      rw [haff] at he
      have hf : e ∈ findallEmails t :=
        ((mem_dedupBy_id _ _ _).mp he).1
      have ht : t ∈ allAffiliationTexts art := by
        unfold allAffiliationTexts
        refine List.mem_append_right _ ?_
        exact List.mem_filterMap.mpr ⟨a, ha, haff⟩
      unfold articleEmails
      exact (mem_dedupBy_id _ _ _).mpr
        ⟨List.mem_flatMap.mpr ⟨t, ht, hf⟩, List.not_mem_nil _⟩
  have hres : resolveEmails b.affiliation (articleEmails art) = articleEmails art := by
    rw [hbnone]
    unfold resolveEmails
    rw [if_pos ⟨rfl, hne⟩]
  exact ⟨hmem, hres, by rw [hres]; exact hmem⟩

/-- C10 (witness): author One's personal address resolves as author Two's,
who has no affiliation text. -/
theorem c10_author_email_leak_witness :
    "x@y.org" ∈ articleEmails
        ⟨none, none, [⟨some "One", none, some "x@y.org"⟩,
          ⟨some "Two", none, none⟩], []⟩ ∧
      resolveEmails none (articleEmails
        ⟨none, none, [⟨some "One", none, some "x@y.org"⟩,
          ⟨some "Two", none, none⟩], []⟩) = articleEmails
        ⟨none, none, [⟨some "One", none, some "x@y.org"⟩,
          ⟨some "Two", none, none⟩], []⟩ ∧
      "x@y.org" ∈ resolveEmails none (articleEmails
        ⟨none, none, [⟨some "One", none, some "x@y.org"⟩,
          ⟨some "Two", none, none⟩], []⟩) :=
  c10_author_email_leak
    ⟨none, none, [⟨some "One", none, some "x@y.org"⟩, ⟨some "Two", none, none⟩], []⟩
    ⟨some "One", none, some "x@y.org"⟩ ⟨some "Two", none, none⟩ "x@y.org"
    (by decide) (by decide) (by decide) rfl (by decide)

/-- C2 (counterexample): with all filters off, an author whose last name is
whitespace-only produces a row whose author field is the empty string,
refuting the claimed invariant. -/
theorem c2_row_invariant_cex :
    fetch_article_details ⟨false, false, false, [], "", "", ""⟩
        [Except.ok [⟨none, none, [⟨some "   ", none, none⟩], []⟩]] =
      [⟨"No title", "", "No email found"⟩] := by
  decide

/-- C2 (amended): every row produced by the pipeline — for any input batches
and any `FilterConfig` — has an e-mail field that is either the
`"No email found"` sentinel or pattern-shaped, never the empty string;
and, provided no author entry carries a non-empty but whitespace-only last
name, a non-empty author field as well. -/
theorem c2_row_invariant (filters : FilterConfig)
    (batches : List (Except String (List ArticleRecord))) :
    (∀ r ∈ fetch_article_details filters batches,
      r.email ≠ "" ∧ (r.email = "No email found" ∨ emailShape r.email)) ∧
    ((∀ b ∈ batches, ∀ art ∈ batchArticles b, ∀ a ∈ art.authors,
        lastNameOk a = true) →
      ∀ r ∈ fetch_article_details filters batches, r.author ≠ "") := by
  constructor
  · intro r hr
    rcases mem_fetch _ _ _ hr with ⟨b, hb, art, hart, hmem⟩
    rcases mem_processArticle _ _ _ hmem with ⟨a, hauth, hpa⟩
    rcases mem_processAuthor _ _ _ _ _ hpa with ⟨-, -, hemail⟩
    have hshape : r.email = "No email found" ∨ emailShape r.email := by
      rcases hemail with hsent | hres
      · exact Or.inl hsent
      · refine Or.inr ?_
        rcases mem_resolveEmails _ _ _ hres with hart' | ⟨t, -, hf⟩
        · rcases mem_articleEmails _ _ hart' with ⟨t, -, hf⟩
          exact mem_findallEmails_shape t _ hf
        · exact mem_findallEmails_shape t _ hf
    refine ⟨?_, hshape⟩
    rcases hshape with hsent | hsh
    · rw [hsent]; decide
    · exact emailShape_ne_empty _ hsh
  · intro hok r hr
    rcases mem_fetch _ _ _ hr with ⟨b, hb, art, hart, hmem⟩
    rcases mem_processArticle _ _ _ hmem with ⟨a, hauth, hpa⟩
    rcases mem_processAuthor _ _ _ _ _ hpa with ⟨-, hauthor, -⟩
    rw [hauthor]
    exact authorDisplayName_ne_empty a (hok b hb art hart a hauth)

/-- C2 (witness): both halves of the amended invariant evaluated on a
concrete two-author pipeline row. -/
theorem c2_row_invariant_witness :
    (("a@b.ce" : String) ≠ "" ∧
      (("a@b.ce" : String) = "No email found" ∨ emailShape "a@b.ce")) ∧
    ("Jane Doe" : String) ≠ "" :=
  ⟨(c2_row_invariant ⟨false, false, false, [], "", "", ""⟩
      [Except.ok [⟨some "T", none,
        [⟨some "Doe", some "Jane", some "a@b.ce"⟩,
         ⟨some "Roe", none, none⟩], []⟩]]).1
      ⟨"T", "Jane Doe", "a@b.ce"⟩ (by decide),
   (c2_row_invariant ⟨false, false, false, [], "", "", ""⟩
      [Except.ok [⟨some "T", none,
        [⟨some "Doe", some "Jane", some "a@b.ce"⟩,
         ⟨some "Roe", none, none⟩], []⟩]]).2
      (by decide) ⟨"T", "Jane Doe", "a@b.ce"⟩ (by decide)⟩

end PubMed
